import Mathlib

/-!
Verification of the smallsh command interpreter core.

The definitions below are a shallow embedding of the C sources:
`config.h`, `parsers.c`, `commands.c`, `signal_handlers.c`, `main.c`.
Strings are modelled as `List Char`; C machine integers that matter here
(lengths, token counts, file descriptors, exit codes) are `Nat`.
-/

namespace Smallsh

/-! ## config.h -/

/-- Constant `MAX_INPUT_CHARS_SIZE` from config.h: 2048 chars + newline + null terminator. -/
def MAX_INPUT_CHARS_SIZE : Nat := 2050

/-- Constant `MAX_ARGV_SIZE` from config.h (the source comment reads
"1 command + 512 args + null pointer"). -/
def MAX_ARGV_SIZE : Nat := 514

/-! ## parsers.c: truncate_right -/

/-- Function `truncate_right` from parsers.c: removes trailing space and newline
characters.  The C version works in place on a buffer and returns the new
length; here we return the trimmed list directly. -/
def truncate_right : List Char → List Char
  | [] => []
  | c :: rest =>
    match truncate_right rest with
    | [] => if c = ' ' || c = '\n' then [] else [c]
    | r => c :: r

/-! ## parsers.c: parse_args

`parse_args` tokenizes the argv span with `strtok_r` on the single
delimiter `' '`: leading and repeated delimiters are skipped, each token is
a maximal run of non-space characters.  `strtok_words` models the stream of
tokens `strtok_r` yields; `parse_args_loop` models the copying do-while
loop guarded by `arg_token != NULL && i < MAX_ARGV_SIZE`. -/

/-- Accumulator version of the `strtok_r (s, " ", ...)` token stream. -/
def strtok_words_aux : List Char → List Char → List (List Char)
  | [], acc => if acc = [] then [] else [acc.reverse]
  | c :: rest, acc =>
    if c = ' ' then
      if acc = [] then strtok_words_aux rest []
      else acc.reverse :: strtok_words_aux rest []
    else strtok_words_aux rest (c :: acc)

/-- The tokens `strtok_r` produces for the whole string. -/
def strtok_words (s : List Char) : List (List Char) := strtok_words_aux s []

/-- The copying loop of `parse_args`: the token at index `i` is stored, and
the loop continues while another token exists and `i + 1 < MAX_ARGV_SIZE`
(the do-while condition after `i++`). -/
def parse_args_loop : List (List Char) → Nat → List (List Char)
  | [], _ => []
  | t :: ts, i => t :: (if i + 1 < MAX_ARGV_SIZE then parse_args_loop ts (i + 1) else [])

/-- Function `parse_args` from parsers.c, as the argv list it produces. -/
def parse_args (argv_string : List Char) : List (List Char) :=
  parse_args_loop (strtok_words argv_string) 0

/-! ## parsers.c: expand

`expand` rewrites the raw line: every `$$` becomes the decimal process id,
a lone `$` is copied, runs of spaces collapse to one space and leading
spaces are dropped.  The C function is a single index-driven loop; each
outer iteration (a) skips spaces, (b) copies characters up to a space, `$`
or the end, (c) handles `$$` or a lone `$`, and (d) copies one space if one
follows.  `expand_loop` mirrors that iteration structure; the fuel argument
only bounds the recursion and is irrelevant once it is at least the input
length. -/

/-- The character class the copying inner loop of `expand` accepts:
neither a space nor a dollar sign (the null terminator is the list end). -/
def not_space_dollar (c : Char) : Bool := c != ' ' && c != '$'

/-- The `$`-handling step of `expand`: given the process-id string and the
rest of the input after the copied word, produce the characters to emit and
the remaining input (`$$` emits the pid and consumes two characters, a lone
`$` is copied, anything else emits nothing). -/
def dollar_step (pid : List Char) : List Char → List Char × List Char
  | [] => ([], [])
  | [c] => if c = '$' then (['$'], []) else ([], [c])
  | c1 :: c2 :: r =>
    if c1 = '$' then
      if c2 = '$' then (pid, r) else (['$'], c2 :: r)
    else ([], c1 :: c2 :: r)

/-- The tail of one outer iteration of `expand`: after the copied word `w`
and the `$`-handling result `p`, copy one following space if present and
continue through `rec` (the loop with the remaining fuel). -/
def expand_tail (pid : List Char) (rec : List Char → List Char)
    (w : List Char) (p : List Char × List Char) : List Char :=
  match p.2 with
  | [] => w ++ p.1
  | d :: s4 =>
    if d = ' ' then w ++ p.1 ++ ' ' :: rec s4
    else w ++ p.1 ++ rec (d :: s4)

/-- The body of one outer iteration of `expand`, after the leading spaces
have been skipped: copy the word up to a space, `$` or the end, then
handle `$$` / `$` and the following space. -/
def expand_core (pid : List Char) (rec : List Char → List Char)
    (s1 : List Char) : List Char :=
  expand_tail pid rec (s1.takeWhile not_space_dollar)
    (dollar_step pid (s1.dropWhile not_space_dollar))

/-- One-iteration-per-call model of the outer while loop of `expand`. -/
def expand_loop (pid : List Char) : Nat → List Char → List Char
  | 0, _ => []
  | _, [] => []
  | fuel + 1, c :: cs =>
    expand_core pid (expand_loop pid fuel) ((c :: cs).dropWhile (fun x => x == ' '))

/-- Function `expand` from parsers.c (the pid string is a parameter; the C code
obtains it from `sprintf(pid_as_str, "%d", getpid())`). -/
def expand (pid : List Char) (input_string : List Char) : List Char :=
  expand_loop pid input_string.length input_string

/-- Base-10 digits of `n` as characters, least significant first; the fuel
only bounds the recursion and `n` itself is always enough. -/
def natDigitsAux : Nat → Nat → List Char
  | 0, _ => []
  | _ + 1, 0 => []
  | fuel + 1, n + 1 => Nat.digitChar ((n + 1) % 10) :: natDigitsAux fuel ((n + 1) / 10)

/-- Model of `sprintf(buf, "%d", pid)` for the (non-negative) process id:
the usual decimal numeral, most significant digit first. -/
def pidChars (pid : Nat) : List Char :=
  if pid = 0 then ['0'] else (natDigitsAux pid pid).reverse

/-! ## Specification-side characterization of `expand`

Used to state claim C5: `collapseSpaces` drops leading spaces and collapses
every run of spaces to a single one; `replaceDollars` rewrites each
non-overlapping `$$` (left to right) to the pid string and copies a lone
`$` literally. -/

/-- Collapse every run of two or more spaces to a single space. -/
def collapseRuns : List Char → List Char
  | [] => []
  | [c] => [c]
  | c1 :: c2 :: rest =>
    if c1 = ' ' ∧ c2 = ' ' then collapseRuns (c2 :: rest)
    else c1 :: collapseRuns (c2 :: rest)

/-- Drop leading spaces, then collapse interior runs of spaces. -/
def collapseSpaces (s : List Char) : List Char :=
  collapseRuns (s.dropWhile (fun x => x == ' '))

/-- Replace each occurrence of `$$` (scanning left to right,
non-overlapping) by `pid`; copy a lone `$` literally. -/
def replaceDollars (pid : List Char) : List Char → List Char
  | [] => []
  | [c] => [c]
  | c1 :: c2 :: rest =>
    if c1 = '$' ∧ c2 = '$' then pid ++ replaceDollars pid rest
    else c1 :: replaceDollars pid (c2 :: rest)

/-- Predicate `noAdjPair p s` holds when no two adjacent characters of `s` satisfy
the two-place test `p`. -/
def noAdjPair (p : Char → Char → Bool) : List Char → Bool
  | [] => true
  | [_] => true
  | c1 :: c2 :: rest => !p c1 c2 && noAdjPair p (c2 :: rest)

/-- No two adjacent spaces. -/
def noDoubleSpace : List Char → Bool :=
  noAdjPair (fun a b => a == ' ' && b == ' ')

/-- No two adjacent dollar signs. -/
def noDoubleDollar : List Char → Bool :=
  noAdjPair (fun a b => a == '$' && b == '$')

/-! ## parsers.c: the command struct and parse_command -/

/-- The `command` struct from parsers.h: argv, background flag, and the
optional input/output redirection paths (`i_stream` / `o_stream`). -/
structure Command where
  argv : List (List Char)
  background : Bool
  i_stream : Option (List Char)
  o_stream : Option (List Char)
deriving DecidableEq

/-- True when the three characters at the head are exactly the operator
sequence a space, `>` or `<`, a space — the only form `parse_command`
recognizes (its scans use `strncmp(.., " > ", 3)` / `strncmp(.., " < ", 3)`). -/
def isOpPattern (t : List Char) : Bool :=
  t.take 3 == [' ', '>', ' '] || t.take 3 == [' ', '<', ' ']

/-- The shared scanning loop of `parse_command` (steps 3 and 4): advance an
index while it is strictly before the last position and no ` > ` / ` < `
pattern starts there.  Returns the scanned span (inclusive of the stop
position) and the remainder after the stop position. -/
def spanUntilOp : List Char → List Char × List Char
  | [] => ([], [])
  | [c] => ([c], [])
  | c :: c2 :: rest =>
    if isOpPattern (c :: c2 :: rest) then ([c], c2 :: rest)
    else
      let pr := spanUntilOp (c2 :: rest)
      (c :: pr.1, pr.2)

/-- The space-skipping loop inside the redirection phase:
`while (command_string[left] == ' ' && left < right) left++;` — skips
spaces but never moves past the last position. -/
def skipSpacesBounded : List Char → List Char
  | [] => []
  | [c] => [c]
  | c :: c2 :: rest => if c = ' ' then skipSpacesBounded (c2 :: rest) else c :: c2 :: rest

/-- The redirection-parsing while loop of `parse_command` (step 4).  The
remaining string always starts at the operator character; the loop runs
while at least two characters remain (`left < right`), reads the operator,
skips spaces, scans the filename span up to the next ` > ` / ` < ` or the
end, right-trims it, and captures it (input stream for `<`, otherwise
output stream) unless the trimmed span is empty.  Fuel only bounds the
recursion; the initial length is always enough. -/
def redirLoop : Nat → List Char → Option (List Char) → Option (List Char) →
    Option (List Char) × Option (List Char)
  | 0, _, i_s, o_s => (i_s, o_s)
  | _ + 1, [], i_s, o_s => (i_s, o_s)
  | _ + 1, [_], i_s, o_s => (i_s, o_s)
  | fuel + 1, op :: c2 :: rest, i_s, o_s =>
    let t1 := skipSpacesBounded (c2 :: rest)
    let pr := spanUntilOp t1
    let fname := truncate_right pr.1
    if fname = [] then redirLoop fuel pr.2 i_s o_s
    else if op == '<' then redirLoop fuel pr.2 (some fname) o_s
    else redirLoop fuel pr.2 i_s (some fname)

/-- The redirection phase applied to the remainder after the argv span. -/
def redirPhase (t : List Char) : Option (List Char) × Option (List Char) :=
  redirLoop t.length t none none

/-- The operator/filename segments the redirection loop visits, in order:
each entry is the operator character and the right-trimmed filename span
following it. -/
def redirSegments : Nat → List Char → List (Char × List Char)
  | 0, _ => []
  | _ + 1, [] => []
  | _ + 1, [_] => []
  | fuel + 1, op :: c2 :: rest =>
    let t1 := skipSpacesBounded (c2 :: rest)
    let pr := spanUntilOp t1
    (op, truncate_right pr.1) :: redirSegments fuel pr.2

/-- The per-segment state update of the redirection loop: an empty
(whitespace-only) span is ignored, `<` overwrites the input path, any other
operator overwrites the output path. -/
def redirUpdate (acc : Option (List Char) × Option (List Char))
    (seg : Char × List Char) : Option (List Char) × Option (List Char) :=
  if seg.2 = [] then acc
  else if seg.1 == '<' then (some seg.2, acc.2)
  else (acc.1, some seg.2)

/-- Keep the last element of `l` if there is one, else keep `prev`. -/
def lastWins (prev : Option (List Char)) (l : List (List Char)) : Option (List Char) :=
  match l.getLast? with
  | some x => some x
  | none => prev

/-- The nonempty filename captures for the input operator, in order. -/
def pickInput (seg : Char × List Char) : Option (List Char) :=
  if seg.2 ≠ [] ∧ seg.1 = '<' then some seg.2 else none

/-- The nonempty filename captures for the output operator, in order. -/
def pickOutput (seg : Char × List Char) : Option (List Char) :=
  if seg.2 ≠ [] ∧ seg.1 ≠ '<' then some seg.2 else none

/-- Step 2 of `parse_command`: the trailing `&` is a background operator
precisely when the last character is `&`, it is preceded by a space, and
the string has at least three characters (`right > left + 1`). -/
def bgOperatorPresent (s : List Char) : Bool :=
  match s.reverse with
  | [] => false
  | [_] => false
  | [_, _] => false
  | a :: b :: _ :: _ => a == '&' && b == ' '

/-- Steps 3 and 4 of `parse_command` on the working string after the
background operator (if any) has been removed: scan the argv span up to
the first ` > ` / ` < `, null-terminate it at the stop position when that
position holds a space, tokenize it with `parse_args`, then run the
redirection loop on the remainder. -/
def parseTail (s : List Char) : Command :=
  let pr := spanUntilOp s
  let argvStr := if pr.1.getLast? = some ' ' then pr.1.dropLast else pr.1
  let redir := redirPhase pr.2
  { argv := parse_args argvStr, background := false,
    i_stream := redir.1, o_stream := redir.2 }

/-- Function `parse_command` from parsers.c: expand `$$` and collapse spaces, trim
the right end, return no command for an empty result or a comment line,
detect the background operator, then parse argv and the redirections.
Removing the trailing ` &` is modelled by dropping the last two characters
(the C code overwrites the space with a null terminator). -/
def parse_command (pid : Nat) (input_string : List Char) : Option Command :=
  let command_string := truncate_right (expand (pidChars pid) input_string)
  if command_string = [] then none
  else if command_string.head? = some '#' then none
  else if bgOperatorPresent command_string then
    some { parseTail (command_string.dropLast.dropLast) with background := true }
  else some (parseTail command_string)

/-! ## commands.c: run_command and the last-foreground-result -/

/-- File descriptor `STDIN_FILENO`. -/
def STDIN_FILENO : Nat := 0

/-- File descriptor `STDOUT_FILENO`. -/
def STDOUT_FILENO : Nat := 1

/-- The path used for discarded streams of background commands. -/
def devNull : List Char := "/dev/null".toList

/-- The two static variables of commands.c that hold the
last-foreground-result: `exit_status` and `by_signal`. -/
structure ShellState where
  exit_status : Nat
  by_signal : Bool
deriving DecidableEq

/-- Result of `waitpid` on the foreground child, as classified by
`WIFEXITED` / `WEXITSTATUS` / `WTERMSIG`. -/
inductive WaitStatus where
  | exited (code : Nat)
  | signaled (sig : Nat)
deriving DecidableEq

/-- The operating-system behavior a single `run_command` call observes:
what `open` returns for each path (`none` models -1), what `fork` returns
(`none` models -1), and how the foreground wait ends. -/
structure OSBehavior where
  openRead : List Char → Option Nat
  openWrite : List Char → Option Nat
  forkResult : Option Nat
  waitStatus : WaitStatus

/-- Observable output of `run_command`. -/
inductive Event where
  | fileError (name : List Char) (forInput : Bool)
  | forkError
  | backgroundPid (pid : Nat)
  | statusReport (by_signal : Bool) (code : Nat)
  | clearedStdinError
  | cdTo (path : Option (List Char))
deriving DecidableEq

/-- Everything a `run_command` call did: the last-foreground-result it
leaves behind, whether a child was created, whether the parent waited,
whether the child was detached as a background job, which descriptors the
call opened and closed, and the output it produced. -/
structure RunResult where
  state : ShellState
  childCreated : Bool
  waited : Bool
  ranInBackground : Bool
  openedFds : List Nat
  closedFds : List Nat
  events : List Event
deriving DecidableEq

/-- The input-stream resolution at the top of `run_command`: an explicit
path is opened read-only; otherwise background commands read `/dev/null`
and foreground commands inherit `STDIN_FILENO`. -/
def resolveInputFd (os : OSBehavior) (input_file : Option (List Char))
    (in_background : Bool) : Option Nat :=
  match input_file with
  | none => if in_background then os.openRead devNull else some STDIN_FILENO
  | some f => os.openRead f

/-- The symmetric output-stream resolution. -/
def resolveOutputFd (os : OSBehavior) (output_file : Option (List Char))
    (in_background : Bool) : Option Nat :=
  match output_file with
  | none => if in_background then os.openWrite devNull else some STDOUT_FILENO
  | some f => os.openWrite f

/-- Whether the input resolution called `open` (rather than inheriting
`STDIN_FILENO`). -/
def inputWasOpened (input_file : Option (List Char)) (in_background : Bool) : Bool :=
  input_file.isSome || in_background

/-- Whether the output resolution called `open`. -/
def outputWasOpened (output_file : Option (List Char)) (in_background : Bool) : Bool :=
  output_file.isSome || in_background

/-- The classification the parent applies after `waitpid` on a foreground
child: `WIFEXITED` stores the exit code with `by_signal = false`, otherwise
the signal number is stored with `by_signal = true`. -/
def classifyWait : WaitStatus → ShellState
  | .exited code => { exit_status := code, by_signal := false }
  | .signaled sg => { exit_status := sg, by_signal := true }

/-- Function `run_command` from commands.c.  On an input-open failure it reports the
error, sets `exit_status = 1` and returns; on an output-open failure it
additionally closes the input descriptor when that is not `STDIN_FILENO`;
then it forks; the parent either prints the background pid and detaches, or
waits and records the classified status (printing an immediate status line
when the child was terminated by a signal). -/
def run_command (os : OSBehavior) (argv : List (List Char))
    (input_file output_file : Option (List Char)) (in_background : Bool)
    (s : ShellState) : RunResult :=
  match resolveInputFd os input_file in_background with
  | none =>
    { state := { s with exit_status := 1 }, childCreated := false,
      waited := false, ranInBackground := false,
      openedFds := [], closedFds := [],
      events := [.fileError (input_file.getD devNull) true] }
  | some input_fd =>
    let openedIn : List Nat := if inputWasOpened input_file in_background then [input_fd] else []
    match resolveOutputFd os output_file in_background with
    | none =>
      { state := { s with exit_status := 1 }, childCreated := false,
        waited := false, ranInBackground := false,
        openedFds := openedIn,
        closedFds := if input_fd ≠ STDIN_FILENO then [input_fd] else [],
        events := [.fileError (output_file.getD devNull) false] }
    | some output_fd =>
      let openedAll := openedIn ++
        (if outputWasOpened output_file in_background then [output_fd] else [])
      match os.forkResult with
      | none =>
        { state := s, childCreated := false, waited := false,
          ranInBackground := false, openedFds := openedAll, closedFds := [],
          events := [.forkError] }
      | some pid =>
        if in_background then
          { state := s, childCreated := true, waited := false,
            ranInBackground := true, openedFds := openedAll, closedFds := [],
            events := [.backgroundPid pid] }
        else
          match os.waitStatus with
          | .exited code =>
            { state := { exit_status := code, by_signal := false },
              childCreated := true, waited := true, ranInBackground := false,
              openedFds := openedAll, closedFds := [], events := [] }
          | .signaled sg =>
            { state := { exit_status := sg, by_signal := true },
              childCreated := true, waited := true, ranInBackground := false,
              openedFds := openedAll, closedFds := [],
              events := [.statusReport true sg] }

/-! ## signal_handlers.c: dispositions, the foreground flag, SIGTSTP -/

/-- Dispositions the shell can install for SIGTSTP. -/
inductive TstpDisp where
  | normalMode
  | fgOnlyMode
  | ignoredT
  | dfltT
deriving DecidableEq

/-- Dispositions the shell can install for SIGCHLD. -/
inductive ChldDisp where
  | reporting
  | noOutput
  | dfltC
deriving DecidableEq

/-- Plain default/ignore dispositions (SIGINT, SIGTERM). -/
inductive SimpleDisp where
  | dflt
  | ignored
deriving DecidableEq

/-- Process-wide signal state: the `foreground_flag` of signal_handlers.c
together with the currently registered dispositions. -/
structure SigEnv where
  foreground_flag : Nat
  tstp : TstpDisp
  intr : SimpleDisp
  chld : ChldDisp
  term : SimpleDisp
deriving DecidableEq

/-- Function `set_SIGTSTP_handler` from signal_handlers.c: mode 0 registers the
normal-mode handler, any other mode the foreground-only-mode handler. -/
def set_SIGTSTP_handler (mode : Nat) (e : SigEnv) : SigEnv :=
  { e with tstp := if mode = 0 then .normalMode else .fgOnlyMode }

/-- The 52-character notice the normal-mode handler writes. -/
def enterMessage : List Char :=
  "\nEntering foreground-only mode (& is now ignored)\n: ".toList

/-- The 32-character notice the foreground-only-mode handler writes. -/
def exitMessage : List Char := "\nExiting foreground-only mode\n: ".toList

/-- Handler `SIGTSTP_handler_normal_mode`: write the entering notice, set
`foreground_flag = 1`, register the foreground-only-mode handler. -/
def SIGTSTP_handler_normal_mode (e : SigEnv) : SigEnv × List Char :=
  (set_SIGTSTP_handler 1 { e with foreground_flag := 1 }, enterMessage)

/-- Handler `SIGTSTP_handler_foreground_only_mode`: write the exiting notice, set
`foreground_flag = 0`, register the normal-mode handler. -/
def SIGTSTP_handler_foreground_only_mode (e : SigEnv) : SigEnv × List Char :=
  (set_SIGTSTP_handler 0 { e with foreground_flag := 0 }, exitMessage)

/-- Delivery of SIGTSTP: run whichever handler is registered (an ignored
or default disposition leaves the state alone and writes nothing in this
model, which only tracks the shell process). -/
def deliverSIGTSTP (e : SigEnv) : SigEnv × List Char :=
  match e.tstp with
  | .normalMode => SIGTSTP_handler_normal_mode e
  | .fgOnlyMode => SIGTSTP_handler_foreground_only_mode e
  | .ignoredT => (e, [])
  | .dfltT => (e, [])

/-- Function `set_initial_signal_handlers`: SIGTSTP toggles foreground-only mode,
SIGCHLD reports terminating background children, SIGINT is ignored. -/
def set_initial_signal_handlers (e : SigEnv) : SigEnv :=
  { set_SIGTSTP_handler 0 e with chld := .reporting, intr := .ignored }

/-- Function `set_child_signal_handlers`: in the forked child, SIGTSTP is ignored,
SIGINT is ignored for background children and default for foreground
children, SIGCHLD is restored to default. -/
def set_child_signal_handlers (background_mode : Bool) (e : SigEnv) : SigEnv :=
  { e with
    tstp := .ignoredT,
    intr := if background_mode then .ignored else .dflt,
    chld := .dfltC }

/-- Function `set_cleanup_signal_handlers`: SIGCHLD keeps reaping with output
suppressed, SIGTERM is ignored. -/
def set_cleanup_signal_handlers (e : SigEnv) : SigEnv :=
  { e with chld := .noOutput, term := .ignored }

/-- The signal state at program start: `foreground_flag` is statically
initialized to 0 and no handler has been registered yet. -/
def bootSigEnv : SigEnv :=
  { foreground_flag := 0, tstp := .dfltT, intr := .dflt, chld := .dfltC, term := .dflt }

/-- The signal state after `setup()` in main.c has run. -/
def startupSigEnv : SigEnv := set_initial_signal_handlers bootSigEnv

/-- Handler `SIGCHLD_handler_no_output`: reap every already-exited child with a
non-blocking wait loop and write nothing.  The argument lists the children
available to reap; the result is the output written. -/
def SIGCHLD_handler_no_output : List (Nat × WaitStatus) → List Event
  | [] => []
  | _ :: rest => SIGCHLD_handler_no_output rest

/-! ## commands.c: builtin_exit, modelled with cleanup semantics -/

/-- Signal number of SIGTERM. -/
def SIGTERM : Nat := 15

/-- The externally visible steps `builtin_exit` performs, in order. -/
inductive ExitAction where
  | installCleanup
  | broadcastSignal (sig : Nat)
  | sleepMicros (n : Nat)
  | exitProcess (code : Nat)
deriving DecidableEq

/-- The body of `builtin_exit`: install the cleanup handlers, broadcast
SIGTERM to the process group with `kill(0, SIGTERM)`, sleep 5000
microseconds, call `exit(0)`. -/
def builtin_exit_actions : List ExitAction :=
  [.installCleanup, .broadcastSignal SIGTERM, .sleepMicros 5000, .exitProcess 0]

/-- The interpreter process while `builtin_exit` runs: its signal state,
whether it is still alive, and the status it exited with (if any). -/
structure ProcState where
  env : SigEnv
  alive : Bool
  exitCode : Option Nat
deriving DecidableEq

/-- Delivery of the broadcast SIGTERM to the interpreter itself: the
default disposition terminates the process, an ignored disposition leaves
it untouched. -/
def selfDeliverSIGTERM (p : ProcState) : ProcState :=
  match p.env.term with
  | .dflt => { p with alive := false }
  | .ignored => p

/-- Execute one `builtin_exit` step; a process that is no longer alive
performs nothing. -/
def execExitAction (p : ProcState) (a : ExitAction) : ProcState :=
  if p.alive = false then p
  else
    match a with
    | .installCleanup => { p with env := set_cleanup_signal_handlers p.env }
    | .broadcastSignal s =>
      if s = SIGTERM then selfDeliverSIGTERM p else p
    | .sleepMicros _ => p
    | .exitProcess c => { p with alive := false, exitCode := some c }

/-- Function `builtin_exit` from commands.c, run from a given starting state. -/
def builtin_exit (p : ProcState) : ProcState :=
  builtin_exit_actions.foldl execExitAction p

/-! ## main.c: one iteration of the control loop -/

/-- The name compared with `strcmp(parsed_command->argv[0], "exit")`. -/
def exitWord : List Char := "exit".toList

/-- The name compared with `strcmp(parsed_command->argv[0], "cd")`. -/
def cdWord : List Char := "cd".toList

/-- The name compared with `strcmp(parsed_command->argv[0], "status")`. -/
def statusWord : List Char := "status".toList

/-- The loop-local state of `main`: the input buffer, the `exit_triggered`
flag, and the last-foreground-result the built-ins read. -/
structure LoopState where
  buffer : List Char
  exit_triggered : Bool
  shell : ShellState
deriving DecidableEq

/-- One execution of the while-loop body of `main` (entered with
`exit_triggered` false).  A failed or end-of-file `fgets` leaves the buffer
unchanged and merely clears the stream condition with `clearerr`; the
buffer is then parsed either way.  An `exit` command sets `exit_triggered`;
`cd` and `status` run their built-ins; anything else is dispatched to
`run_command` with the background request resolved against the
foreground-only flag (`parsed_command->background && get_foreground_flag() != 1`). -/
def loop_iteration (os : OSBehavior) (pid : Nat) (foreground_flag : Nat)
    (st : LoopState) (readResult : Option (List Char)) : LoopState × List Event :=
  let buf := match readResult with
    | some line => line
    | none => st.buffer
  let cleared : List Event := match readResult with
    | some _ => []
    | none => [.clearedStdinError]
  match parse_command pid buf with
  | none => ({ st with buffer := buf }, cleared)
  | some d =>
    if d.argv.head? = some exitWord then
      ({ st with buffer := buf, exit_triggered := true }, cleared)
    else if d.argv.head? = some cdWord then
      ({ st with buffer := buf }, cleared ++ [.cdTo (d.argv.get? 1)])
    else if d.argv.head? = some statusWord then
      ({ st with buffer := buf },
        cleared ++ [.statusReport st.shell.by_signal st.shell.exit_status])
    else
      let r := run_command os d.argv d.i_stream d.o_stream
        (d.background && (foreground_flag != 1)) st.shell
      ({ st with buffer := buf, shell := r.state }, cleared ++ r.events)

/-- The dispatch main.c performs for an external command: the effective
background flag is `descriptor.background && foreground_flag != 1`. -/
def dispatch_run (os : OSBehavior) (d : Command) (foreground_flag : Nat)
    (s : ShellState) : RunResult :=
  run_command os d.argv d.i_stream d.o_stream
    (d.background && (foreground_flag != 1)) s

/-- A concrete input of 515 space-delimited tokens, used against claim C2. -/
def c2_long_input : List Char := (List.replicate 515 ['a', ' ']).flatten

/-- An environment in which every explicit `open` for reading fails. -/
def c1_os : OSBehavior :=
  { openRead := fun _ => none, openWrite := fun _ => some 4,
    forkResult := some 7, waitStatus := .exited 0 }

/-- An environment in which opens and fork succeed and the foreground
child exits with code 3. -/
def c7_os : OSBehavior :=
  { openRead := fun _ => some 3, openWrite := fun _ => some 4,
    forkResult := some 9, waitStatus := .exited 3 }

/-! # Theorems -/

/-! ## parse_args: the token cap -/

/-- The copying loop keeps exactly the first `MAX_ARGV_SIZE - i` tokens. -/
theorem parse_args_loop_eq_take (l : List (List Char)) :
    ∀ i, i < MAX_ARGV_SIZE → parse_args_loop l i = l.take (MAX_ARGV_SIZE - i) := by
  induction l with
  | nil => intro i _; simp [parse_args_loop]
  | cons t ts ih =>
    intro i hi
    have hrw : MAX_ARGV_SIZE - i = (MAX_ARGV_SIZE - (i + 1)) + 1 := by
      simp only [MAX_ARGV_SIZE] at *; omega
    rw [parse_args_loop, hrw, List.take_succ_cons]
    by_cases h : i + 1 < MAX_ARGV_SIZE
    · rw [if_pos h, ih (i + 1) h]
    · have : MAX_ARGV_SIZE - (i + 1) = 0 := by omega
      rw [if_neg h, this, List.take_zero]

theorem parse_args_eq_take (s : List Char) :
    parse_args s = (strtok_words s).take MAX_ARGV_SIZE := by
  have h := parse_args_loop_eq_take (strtok_words s) 0 (by norm_num [MAX_ARGV_SIZE])
  simpa [parse_args] using h

theorem strtok_words_replicate :
    ∀ n, strtok_words ((List.replicate n ['a', ' ']).flatten) = List.replicate n ['a'] := by
  intro n
  induction n with
  | zero => rfl
  | succ k ih =>
    rw [List.replicate_succ, List.flatten_cons]
    show strtok_words_aux ('a' :: ' ' :: (List.replicate k ['a', ' ']).flatten) [] = _
    rw [List.replicate_succ]
    simp only [strtok_words_aux, if_neg (by decide : ¬ ('a' : Char) = ' '),
      if_pos (rfl : (' ' : Char) = ' ')]
    simp only [reduceIte, List.reverse_cons, List.reverse_nil, List.nil_append]
    exact congrArg (List.cons ['a']) ih

/-- C2, counterexample: the input of 515 tokens yields an argv of 514
tokens, which exceeds the cap of 512 tokens the claim states. -/
theorem C2_counterexample :
    (parse_args c2_long_input).length = 514 ∧
    ¬ (parse_args c2_long_input).length ≤ 512 := by
  have h : parse_args c2_long_input = (strtok_words c2_long_input).take MAX_ARGV_SIZE :=
    parse_args_eq_take c2_long_input
  rw [h, c2_long_input, strtok_words_replicate 515]
  rw [List.take_replicate]
  norm_num [MAX_ARGV_SIZE]

/-- C2 (amended): for every input line the argv sequence produced by the
parser contains at most 514 tokens (513 arguments plus the command, the
full `MAX_ARGV_SIZE`); for any input with more space-delimited tokens,
parsing still succeeds and the tokens beyond the cap are silently not
collected (the argv is exactly the first 514 tokens of the input). -/
theorem C2_argv_token_cap (s : List Char) :
    (parse_args s).length ≤ MAX_ARGV_SIZE ∧
    parse_args s = (strtok_words s).take MAX_ARGV_SIZE := by
  refine ⟨?_, parse_args_eq_take s⟩
  rw [parse_args_eq_take s]
  exact List.length_take_le _ _

/-! ## SIGTSTP toggle (C8) -/

/-- C8: the job-control mode flag starts in Normal (flag 0, normal-mode
handler registered); delivering the toggle signal in normal mode flips the
flag to 1, registers the foreground-only handler and writes exactly the
entering notice; delivering it in foreground-only mode flips the flag back
to 0, registers the normal handler and writes exactly the exiting notice;
delivery under an ignored disposition changes nothing, and none of the
other disposition-setting operations of signal_handlers.c ever changes the
flag. -/
theorem C8_toggle_state_machine :
    (startupSigEnv.foreground_flag = 0 ∧ startupSigEnv.tstp = .normalMode)
    ∧ (∀ f i c t, deliverSIGTSTP ⟨f, .normalMode, i, c, t⟩ =
        (⟨1, .fgOnlyMode, i, c, t⟩, enterMessage))
    ∧ (∀ f i c t, deliverSIGTSTP ⟨f, .fgOnlyMode, i, c, t⟩ =
        (⟨0, .normalMode, i, c, t⟩, exitMessage))
    ∧ (∀ f i c t, deliverSIGTSTP ⟨f, .ignoredT, i, c, t⟩ = (⟨f, .ignoredT, i, c, t⟩, []))
    ∧ (∀ e m, (set_SIGTSTP_handler m e).foreground_flag = e.foreground_flag)
    ∧ (∀ e, (set_initial_signal_handlers e).foreground_flag = e.foreground_flag)
    ∧ (∀ e b, (set_child_signal_handlers b e).foreground_flag = e.foreground_flag)
    ∧ (∀ e, (set_cleanup_signal_handlers e).foreground_flag = e.foreground_flag) := by
  refine ⟨⟨rfl, rfl⟩, ?_, ?_, ?_, ?_, ?_, ?_, ?_⟩ <;> intros <;> rfl

/-! ## builtin_exit (C9) -/

theorem sigchld_no_output_silent (children : List (Nat × WaitStatus)) :
    SIGCHLD_handler_no_output children = [] := by
  induction children with
  | nil => rfl
  | cons c rest ih => exact ih

/-- C9: `builtin_exit` performs, in order, the switch to cleanup
dispositions, the SIGTERM broadcast to the process group, a fixed 5000
microsecond wait, and `exit(0)`; starting from any prior signal state the
interpreter always ends with exit status 0; the cleanup dispositions
ignore SIGTERM (so the broadcast signal, delivered to the interpreter
itself, does not kill it) and keep reaping children with all output
suppressed. -/
theorem C9_exit_semantics (e : SigEnv) (children : List (Nat × WaitStatus)) :
    builtin_exit_actions =
      [.installCleanup, .broadcastSignal SIGTERM, .sleepMicros 5000, .exitProcess 0]
    ∧ (builtin_exit ⟨e, true, none⟩).exitCode = some 0
    ∧ (builtin_exit ⟨e, true, none⟩).env.term = .ignored
    ∧ (builtin_exit ⟨e, true, none⟩).env.chld = .noOutput
    ∧ selfDeliverSIGTERM ⟨set_cleanup_signal_handlers e, true, none⟩ =
        ⟨set_cleanup_signal_handlers e, true, none⟩
    ∧ SIGCHLD_handler_no_output children = [] :=
  ⟨rfl, rfl, rfl, rfl, rfl, sigchld_no_output_silent children⟩

/-! ## expand: characterization and idempotence (C5) -/

theorem collapseRuns_cons2 (c1 c2 : Char) (rest : List Char) :
    collapseRuns (c1 :: c2 :: rest) =
      if c1 = ' ' ∧ c2 = ' ' then collapseRuns (c2 :: rest)
      else c1 :: collapseRuns (c2 :: rest) := rfl

theorem replaceDollars_cons2 (pid : List Char) (c1 c2 : Char) (rest : List Char) :
    replaceDollars pid (c1 :: c2 :: rest) =
      if c1 = '$' ∧ c2 = '$' then pid ++ replaceDollars pid rest
      else c1 :: replaceDollars pid (c2 :: rest) := rfl

theorem noAdjPair_cons2 (p : Char → Char → Bool) (c1 c2 : Char) (rest : List Char) :
    noAdjPair p (c1 :: c2 :: rest) = (!p c1 c2 && noAdjPair p (c2 :: rest)) := rfl

/-- Collapsing never changes the head character. -/
theorem collapseRuns_cons_nonspace (c : Char) (t : List Char) (hc : c ≠ ' ') :
    collapseRuns (c :: t) = c :: collapseRuns t := by
  cases t with
  | nil => rfl
  | cons c2 rest =>
    rw [collapseRuns_cons2, if_neg]
    rintro ⟨h, _⟩
    exact hc h

/-- A space at the head absorbs the following run of spaces. -/
theorem collapseRuns_cons_space (t : List Char) :
    collapseRuns (' ' :: t) = ' ' :: collapseRuns (t.dropWhile (fun x => x == ' ')) := by
  induction t with
  | nil => rfl
  | cons c2 rest ih =>
    by_cases h : c2 = ' '
    · subst h
      rw [collapseRuns_cons2, if_pos ⟨rfl, rfl⟩, ih]
      simp [List.dropWhile_cons]
    · rw [collapseRuns_cons2, if_neg (by rintro ⟨_, h2⟩; exact h h2),
        List.dropWhile_cons_of_neg (by simpa using h)]

theorem collapseRuns_append_word (w t : List Char) (hw : ∀ c ∈ w, c ≠ ' ') :
    collapseRuns (w ++ t) = w ++ collapseRuns t := by
  induction w with
  | nil => rfl
  | cons a w ih =>
    rw [List.cons_append,
      collapseRuns_cons_nonspace a (w ++ t) (hw a (List.mem_cons_self a w)),
      ih (fun c hc => hw c (List.mem_cons_of_mem a hc)), List.cons_append]

theorem collapseRuns_head (c : Char) (t : List Char) :
    (collapseRuns (c :: t)).head? = some c := by
  induction t generalizing c with
  | nil => rfl
  | cons c2 rest ih =>
    by_cases h : c = ' ' ∧ c2 = ' '
    · rw [collapseRuns_cons2, if_pos h, ih c2, h.1, h.2]
    · rw [collapseRuns_cons2, if_neg h]
      rfl

theorem replaceDollars_cons_nondollar (pid : List Char) (c : Char) (t : List Char)
    (hc : c ≠ '$') :
    replaceDollars pid (c :: t) = c :: replaceDollars pid t := by
  cases t with
  | nil => rfl
  | cons c2 rest =>
    rw [replaceDollars_cons2, if_neg]
    rintro ⟨h, _⟩
    exact hc h

theorem replaceDollars_cons_nondollar_snd (pid : List Char) (c : Char) (t : List Char)
    (ht : t.head? ≠ some '$') :
    replaceDollars pid (c :: t) = c :: replaceDollars pid t := by
  cases t with
  | nil => rfl
  | cons c2 rest =>
    rw [replaceDollars_cons2, if_neg]
    rintro ⟨_, h2⟩
    exact ht (by rw [h2]; rfl)

theorem replaceDollars_dd (pid : List Char) (t : List Char) :
    replaceDollars pid ('$' :: '$' :: t) = pid ++ replaceDollars pid t := by
  rw [replaceDollars_cons2, if_pos ⟨rfl, rfl⟩]

theorem replaceDollars_append_word (pid w t : List Char) (hw : ∀ c ∈ w, c ≠ '$') :
    replaceDollars pid (w ++ t) = w ++ replaceDollars pid t := by
  induction w with
  | nil => rfl
  | cons a w ih =>
    rw [List.cons_append,
      replaceDollars_cons_nondollar pid a (w ++ t) (hw a (List.mem_cons_self a w)),
      ih (fun c hc => hw c (List.mem_cons_of_mem a hc)), List.cons_append]

/-- The head of the remainder of `dropWhile` never satisfies the test. -/
theorem dropWhile_head_not (p : Char → Bool) (l : List Char) :
    ∀ c, (l.dropWhile p).head? = some c → p c = false := by
  induction l with
  | nil => intro c h; cases h
  | cons a t ih =>
    intro c h
    by_cases hp : p a
    · rw [List.dropWhile_cons_of_pos hp] at h
      exact ih c h
    · rw [List.dropWhile_cons_of_neg hp] at h
      cases h
      simpa using hp

theorem dropWhile_length_le (p : Char → Bool) (l : List Char) :
    (l.dropWhile p).length ≤ l.length := by
  induction l with
  | nil => simp
  | cons a t ih =>
    by_cases hp : p a
    · rw [List.dropWhile_cons_of_pos hp]
      exact Nat.le_trans ih (Nat.le_succ _)
    · rw [List.dropWhile_cons_of_neg hp]

/-- Characters kept by `takeWhile not_space_dollar` are neither spaces nor
dollar signs. -/
theorem mem_word_facts (s1 : List Char) :
    ∀ c ∈ s1.takeWhile not_space_dollar, c ≠ ' ' ∧ c ≠ '$' := by
  intro c hc
  have h := List.mem_takeWhile_imp hc
  simp only [not_space_dollar, Bool.and_eq_true, bne_iff_ne] at h
  exact h

/-- The `$`-handling step leaves a non-`$` head alone. -/
theorem dollar_step_nondollar (pid : List Char) (c : Char) (r : List Char)
    (hc : c ≠ '$') : dollar_step pid (c :: r) = ([], c :: r) := by
  cases r with
  | nil => simp [dollar_step, hc]
  | cons c2 r2 => simp [dollar_step, hc]

/-- Equation lemma for `expand_tail` at an exhausted remainder. -/
theorem expand_tail_nil (pid : List Char) (rec : List Char → List Char)
    (w p1 : List Char) : expand_tail pid rec w (p1, []) = w ++ p1 := rfl

/-- Equation lemma for `expand_tail` with a remaining character. -/
theorem expand_tail_cons (pid : List Char) (rec : List Char → List Char)
    (w p1 : List Char) (d : Char) (s4 : List Char) :
    expand_tail pid rec w (p1, d :: s4) =
      if d = ' ' then w ++ p1 ++ ' ' :: rec s4 else w ++ p1 ++ rec (d :: s4) := rfl

/-- One expansion iteration equals the specification-side rewrite of the
span it consumes, provided the continuation already agrees with the
specification on all shorter inputs. -/
theorem expand_core_eq (pid : List Char) (rec : List Char → List Char) (s1 : List Char)
    (hrec : ∀ t, t.length < s1.length → rec t = replaceDollars pid (collapseSpaces t)) :
    expand_core pid rec s1 = replaceDollars pid (collapseRuns s1) := by
  have hsplit : s1.takeWhile not_space_dollar ++ s1.dropWhile not_space_dollar = s1 :=
    List.takeWhile_append_dropWhile not_space_dollar s1
  have hwsp : ∀ c ∈ s1.takeWhile not_space_dollar, c ≠ ' ' :=
    fun c hc => (mem_word_facts s1 c hc).1
  have hwdl : ∀ c ∈ s1.takeWhile not_space_dollar, c ≠ '$' :=
    fun c hc => (mem_word_facts s1 c hc).2
  have hlen : (s1.takeWhile not_space_dollar).length
      + (s1.dropWhile not_space_dollar).length = s1.length := by
    have h := congrArg List.length hsplit
    rw [List.length_append] at h
    exact h
  have hRHS : replaceDollars pid (collapseRuns s1)
      = s1.takeWhile not_space_dollar
        ++ replaceDollars pid (collapseRuns (s1.dropWhile not_space_dollar)) := by
    conv_lhs => rw [← hsplit]
    rw [collapseRuns_append_word _ _ hwsp, replaceDollars_append_word pid _ _ hwdl]
  rw [hRHS]
  show expand_tail pid rec (s1.takeWhile not_space_dollar)
    (dollar_step pid (s1.dropWhile not_space_dollar)) = _
  cases hS2 : s1.dropWhile not_space_dollar with
  | nil =>
    rw [show dollar_step pid [] = ([], []) from rfl, expand_tail_nil]
    simp [collapseRuns, replaceDollars]
  | cons e es =>
    have hlen2 : (s1.takeWhile not_space_dollar).length + (es.length + 1) = s1.length := by
      rw [← hlen, hS2]
      simp
    have he : not_space_dollar e = false := by
      apply dropWhile_head_not not_space_dollar s1
      rw [hS2]
      rfl
    have he2 : e = ' ' ∨ e = '$' := by
      by_cases h1 : e = ' '
      · exact Or.inl h1
      · by_cases h2 : e = '$'
        · exact Or.inr h2
        · exfalso
          simp [not_space_dollar, h1, h2] at he
    rcases he2 with hsp | hdl
    · -- the word stopped at a space: nothing emitted by the dollar step
      subst hsp
      rw [dollar_step_nondollar pid ' ' es (by decide), expand_tail_cons,
        if_pos rfl, hrec es (by omega), collapseRuns_cons_space,
        replaceDollars_cons_nondollar pid ' ' _ (by decide)]
      simp [collapseSpaces]
    · -- the word stopped at a dollar sign
      subst hdl
      cases es with
      | nil =>
        rw [show dollar_step pid ['$'] = (['$'], []) from rfl, expand_tail_nil]
        simp [collapseRuns, replaceDollars]
      | cons f fs =>
        by_cases hf : f = '$'
        · -- a `$$` occurrence: emit the pid
          subst hf
          rw [show dollar_step pid ('$' :: '$' :: fs) = (pid, fs) from by simp [dollar_step]]
          have hCR : collapseRuns ('$' :: '$' :: fs) = '$' :: '$' :: collapseRuns fs := by
            rw [collapseRuns_cons_nonspace '$' _ (by decide),
              collapseRuns_cons_nonspace '$' _ (by decide)]
          rw [hCR, replaceDollars_dd]
          cases fs with
          | nil =>
            rw [expand_tail_nil]
            simp [replaceDollars]
          | cons g gs =>
            by_cases hg : g = ' '
            · subst hg
              rw [expand_tail_cons, if_pos rfl,
                hrec gs (by simp at hlen2; omega),
                collapseRuns_cons_space,
                replaceDollars_cons_nondollar pid ' ' _ (by decide)]
              simp [collapseSpaces]
            · rw [expand_tail_cons, if_neg hg,
                hrec (g :: gs) (by simp at hlen2 ⊢; omega)]
              have hdw : collapseSpaces (g :: gs) = collapseRuns (g :: gs) := by
                rw [collapseSpaces, List.dropWhile_cons_of_neg (by simpa using hg)]
              rw [hdw]
              simp
        · -- a lone `$`: copy it
          rw [show dollar_step pid ('$' :: f :: fs) = (['$'], f :: fs) from by
            simp [dollar_step, hf]]
          have hCR : collapseRuns ('$' :: f :: fs) = '$' :: collapseRuns (f :: fs) :=
            collapseRuns_cons_nonspace '$' _ (by decide)
          rw [hCR, replaceDollars_cons_nondollar_snd pid '$' _ (by
            rw [collapseRuns_head]
            simp [hf])]
          by_cases hg : f = ' '
          · subst hg
            rw [expand_tail_cons, if_pos rfl,
              hrec fs (by simp at hlen2; omega),
              collapseRuns_cons_space,
              replaceDollars_cons_nondollar pid ' ' _ (by decide)]
            simp [collapseSpaces]
          · rw [expand_tail_cons, if_neg hg,
              hrec (f :: fs) (by simp at hlen2 ⊢; omega)]
            have hdw : collapseSpaces (f :: fs) = collapseRuns (f :: fs) := by
              rw [collapseSpaces, List.dropWhile_cons_of_neg (by simpa using hg)]
            rw [hdw]
            simp

/-- Lemma: `expand` computes the composition of space normalization and `$$`
substitution. -/
theorem expand_loop_eq (pid : List Char) :
    ∀ n s, s.length ≤ n → expand_loop pid n s = replaceDollars pid (collapseSpaces s) := by
  intro n
  induction n with
  | zero =>
    intro s hs
    have h0 : s = [] := List.length_eq_zero.mp (Nat.le_zero.mp hs)
    subst h0
    rfl
  | succ n ih =>
    intro s hs
    cases s with
    | nil => rfl
    | cons c cs =>
      have hrec : ∀ t, t.length < ((c :: cs).dropWhile (fun x => x == ' ')).length →
          expand_loop pid n t = replaceDollars pid (collapseSpaces t) := by
        intro t ht
        apply ih
        have h1 := dropWhile_length_le (fun x => x == ' ') (c :: cs)
        simp only [List.length_cons] at h1 hs
        omega
      show expand_core pid (expand_loop pid n) ((c :: cs).dropWhile (fun x => x == ' ')) = _
      rw [expand_core_eq pid (expand_loop pid n) _ hrec]
      rfl

/-- Lemma: `expand` itself agrees with the specification-side composition. -/
theorem expand_eq_spec (pid s : List Char) :
    expand pid s = replaceDollars pid (collapseSpaces s) :=
  expand_loop_eq pid s.length s (Nat.le_refl _)

theorem dropWhile_eq_self_of_head (l : List Char)
    (h : ∀ c, l.head? = some c → c ≠ ' ') :
    l.dropWhile (fun x => x == ' ') = l := by
  cases l with
  | nil => rfl
  | cons a t =>
    rw [List.dropWhile_cons_of_neg]
    simpa using h a rfl

theorem noAdjPair_tail (p : Char → Char → Bool) (c : Char) (t : List Char)
    (h : noAdjPair p (c :: t) = true) : noAdjPair p t = true := by
  cases t with
  | nil => rfl
  | cons c2 rest =>
    rw [noAdjPair_cons2, Bool.and_eq_true] at h
    exact h.2

theorem noAdjPair_cons_of (p : Char → Char → Bool) (c : Char) (t : List Char)
    (ht : noAdjPair p t = true) (hhead : ∀ x, t.head? = some x → p c x = false) :
    noAdjPair p (c :: t) = true := by
  cases t with
  | nil => rfl
  | cons x xs =>
    rw [noAdjPair_cons2, Bool.and_eq_true]
    exact ⟨by rw [hhead x rfl]; rfl, ht⟩


theorem noAdjPair_append_safe (p : Char → Char → Bool) (w x : List Char)
    (hw : ∀ c ∈ w, ∀ b, p c b = false) :
    noAdjPair p (w ++ x) = noAdjPair p x := by
  induction w with
  | nil => rfl
  | cons a w ih =>
    have ha : ∀ b, p a b = false := hw a (List.mem_cons_self a w)
    have ih2 := ih (fun c hc => hw c (List.mem_cons_of_mem a hc))
    cases hwx : w ++ x with
    | nil =>
      have hw0 : w = [] := (List.append_eq_nil.mp hwx).1
      have hx0 : x = [] := (List.append_eq_nil.mp hwx).2
      subst hw0
      subst hx0
      rfl
    | cons b y =>
      rw [List.cons_append, hwx, noAdjPair_cons2, ha b, ← hwx, ih2,
        Bool.not_false, Bool.true_and]

theorem collapseRuns_fixed : ∀ t : List Char, noDoubleSpace t = true →
    collapseRuns t = t := by
  intro t
  induction t with
  | nil => intro; rfl
  | cons c1 t ih =>
    cases t with
    | nil => intro; rfl
    | cons c2 rest =>
      intro h
      rw [noDoubleSpace, noAdjPair_cons2, Bool.and_eq_true] at h
      rw [collapseRuns_cons2, if_neg, ih h.2]
      rintro ⟨e1, e2⟩
      subst e1; subst e2
      simp at h

theorem replaceDollars_fixed (pid : List Char) : ∀ t : List Char,
    noDoubleDollar t = true → replaceDollars pid t = t := by
  intro t
  induction t with
  | nil => intro; rfl
  | cons c1 t ih =>
    cases t with
    | nil => intro; rfl
    | cons c2 rest =>
      intro h
      rw [noDoubleDollar, noAdjPair_cons2, Bool.and_eq_true] at h
      rw [replaceDollars_cons2, if_neg, ih h.2]
      rintro ⟨e1, e2⟩
      subst e1; subst e2
      simp at h

theorem noDS_collapseRuns : ∀ t : List Char, noDoubleSpace (collapseRuns t) = true := by
  intro t
  induction t with
  | nil => rfl
  | cons c1 t ih =>
    cases t with
    | nil => rfl
    | cons c2 rest =>
      rw [collapseRuns_cons2]
      by_cases h : c1 = ' ' ∧ c2 = ' '
      · rw [if_pos h]
        exact ih
      · rw [if_neg h]
        refine noAdjPair_cons_of _ c1 _ ih ?_
        intro x hx
        rw [collapseRuns_head] at hx
        cases hx
        by_cases h1 : c1 = ' '
        · by_cases h2 : c2 = ' '
          · exact absurd ⟨h1, h2⟩ h
          · simp [h2]
        · simp [h1]

/-- The head of `replaceDollars` output is the original head or, after a
leading `$$`, the head of the pid string. -/
theorem replaceDollars_head (pid : List Char) (hpid : pid ≠ []) (c : Char)
    (t : List Char) :
    (replaceDollars pid (c :: t)).head? = some c ∨
    ∃ hd ∈ pid, (replaceDollars pid (c :: t)).head? = some hd := by
  cases t with
  | nil => exact Or.inl rfl
  | cons c2 rest =>
    by_cases h : c = '$' ∧ c2 = '$'
    · right
      rw [replaceDollars_cons2, if_pos h]
      cases pid with
      | nil => exact absurd rfl hpid
      | cons p ps => exact ⟨p, List.mem_cons_self p ps, rfl⟩
    · left
      rw [replaceDollars_cons2, if_neg h]
      rfl

/-- Lemma: `replaceDollars` with a space-free nonempty pid preserves the absence
of adjacent spaces. -/
theorem R_noDS (pid : List Char) (hpid1 : pid ≠ []) (hpid2 : ∀ c ∈ pid, c ≠ ' ') :
    ∀ n u, u.length ≤ n → noDoubleSpace u = true →
      noDoubleSpace (replaceDollars pid u) = true := by
  intro n
  induction n with
  | zero =>
    intro u hu _
    have h0 : u = [] := List.length_eq_zero.mp (Nat.le_zero.mp hu)
    subst h0
    rfl
  | succ n ih =>
    intro u hu hds
    cases u with
    | nil => rfl
    | cons c1 t =>
      cases t with
      | nil => rfl
      | cons c2 rest =>
        by_cases h : c1 = '$' ∧ c2 = '$'
        · rw [replaceDollars_cons2, if_pos h]
          rw [noDoubleSpace, noAdjPair_append_safe _ pid _
            (fun c hc b => by simp [hpid2 c hc])]
          have hrest : noDoubleSpace rest = true :=
            noAdjPair_tail _ c2 rest (noAdjPair_tail _ c1 _ hds)
          exact ih rest (by simp at hu; omega) hrest
        · rw [replaceDollars_cons2, if_neg h]
          have htail : noDoubleSpace (c2 :: rest) = true := noAdjPair_tail _ c1 _ hds
          have hR : noDoubleSpace (replaceDollars pid (c2 :: rest)) = true :=
            ih (c2 :: rest) (by simp at hu ⊢; omega) htail
          refine noAdjPair_cons_of _ c1 _ hR ?_
          intro x hx
          rcases replaceDollars_head pid hpid1 c2 rest with hh | ⟨hd0, hdmem, hh⟩
          · rw [hh] at hx
            cases hx
            rw [noDoubleSpace, noAdjPair_cons2, Bool.and_eq_true] at hds
            cases hb : ((c1 == ' ') && (c2 == ' ')) with
            | false => rfl
            | true =>
              have h1 := hds.1
              rw [hb] at h1
              exact absurd h1 (by decide)
          · rw [hh] at hx
            cases hx
            simp [hpid2 _ hdmem]

/-- Lemma: `replaceDollars` with a dollar-free nonempty pid never leaves two
adjacent dollar signs. -/
theorem R_noDD (pid : List Char) (hpid1 : pid ≠ []) (hpid3 : ∀ c ∈ pid, c ≠ '$') :
    ∀ n u, u.length ≤ n → noDoubleDollar (replaceDollars pid u) = true := by
  intro n
  induction n with
  | zero =>
    intro u hu
    have h0 : u = [] := List.length_eq_zero.mp (Nat.le_zero.mp hu)
    subst h0
    rfl
  | succ n ih =>
    intro u hu
    cases u with
    | nil => rfl
    | cons c1 t =>
      cases t with
      | nil => rfl
      | cons c2 rest =>
        by_cases h : c1 = '$' ∧ c2 = '$'
        · rw [replaceDollars_cons2, if_pos h]
          rw [noDoubleDollar, noAdjPair_append_safe _ pid _
            (fun c hc b => by simp [hpid3 c hc])]
          exact ih rest (by simp at hu; omega)
        · rw [replaceDollars_cons2, if_neg h]
          have hR : noDoubleDollar (replaceDollars pid (c2 :: rest)) = true :=
            ih (c2 :: rest) (by simp at hu ⊢; omega)
          refine noAdjPair_cons_of _ c1 _ hR ?_
          intro x hx
          rcases replaceDollars_head pid hpid1 c2 rest with hh | ⟨hd0, hdmem, hh⟩
          · rw [hh] at hx
            cases hx
            by_cases h1 : c1 = '$'
            · by_cases h2 : c2 = '$'
              · exact absurd ⟨h1, h2⟩ h
              · simp [h2]
            · simp [h1]
          · rw [hh] at hx
            cases hx
            simp [hpid3 _ hdmem]

/-- The first character of an `expand` result is never a space (the pid
string is assumed nonempty and space-free, as a decimal numeral is). -/
theorem expand_head_not_space (pid s : List Char) (hpid1 : pid ≠ [])
    (hpid2 : ∀ c ∈ pid, c ≠ ' ') :
    ∀ c, (expand pid s).head? = some c → c ≠ ' ' := by
  intro c hc
  rw [expand_eq_spec] at hc
  cases hC : collapseSpaces s with
  | nil =>
    rw [hC] at hc
    cases hc
  | cons d ds =>
    have hd : d ≠ ' ' := by
      rw [collapseSpaces] at hC
      cases hdw : s.dropWhile (fun x => x == ' ') with
      | nil =>
        rw [hdw] at hC
        exact absurd hC (by simp [collapseRuns])
      | cons d0 ds0 =>
        rw [hdw] at hC
        have hh := collapseRuns_head d0 ds0
        rw [hC] at hh
        have hdd : d = d0 := Option.some_inj.mp hh
        subst hdd
        have hns := dropWhile_head_not (fun x => x == ' ') s _ (by rw [hdw]; rfl)
        simpa using hns
    rw [hC] at hc
    rcases replaceDollars_head pid hpid1 d ds with hh | ⟨hd2, hdmem, hh⟩
    · rw [hh] at hc
      cases hc
      exact hd
    · rw [hh] at hc
      cases hc
      exact hpid2 _ hdmem

/-- Lemma: `expand` is idempotent whenever the pid string is nonempty and free of
spaces and dollar signs. -/
theorem expand_idem (pid s : List Char) (hpid1 : pid ≠ [])
    (hpid2 : ∀ c ∈ pid, c ≠ ' ') (hpid3 : ∀ c ∈ pid, c ≠ '$') :
    expand pid (expand pid s) = expand pid s := by
  have hds : noDoubleSpace (expand pid s) = true := by
    rw [expand_eq_spec, collapseSpaces]
    exact R_noDS pid hpid1 hpid2 _ _ (Nat.le_refl _) (noDS_collapseRuns _)
  have hdd : noDoubleDollar (expand pid s) = true := by
    rw [expand_eq_spec]
    exact R_noDD pid hpid1 hpid3 _ _ (Nat.le_refl _)
  rw [expand_eq_spec pid (expand pid s), collapseSpaces,
    dropWhile_eq_self_of_head _ (expand_head_not_space pid s hpid1 hpid2),
    collapseRuns_fixed _ hds, replaceDollars_fixed pid _ hdd]

/-! ## pidChars: the decimal numeral of the process id -/

theorem natDigitsAux_eq_digits : ∀ fuel n, n ≤ fuel →
    natDigitsAux fuel n = (Nat.digits 10 n).map Nat.digitChar := by
  intro fuel
  induction fuel with
  | zero =>
    intro n hn
    have h0 : n = 0 := Nat.le_zero.mp hn
    subst h0
    simp [natDigitsAux]
  | succ fuel ih =>
    intro n hn
    cases n with
    | zero => simp [natDigitsAux]
    | succ m =>
      have hdiv : (m + 1) / 10 ≤ fuel := by
        have h2 : (m + 1) / 10 < m + 1 := Nat.div_lt_self (Nat.succ_pos m) (by norm_num)
        omega
      show Nat.digitChar ((m + 1) % 10) :: natDigitsAux fuel ((m + 1) / 10) = _
      rw [ih _ hdiv, Nat.digits_def' (by norm_num : (1 : Nat) < 10) (Nat.succ_pos m)]
      rfl

theorem pidChars_eq_digits (pid : Nat) (h : pid ≠ 0) :
    pidChars pid = ((Nat.digits 10 pid).map Nat.digitChar).reverse := by
  rw [pidChars, if_neg h, natDigitsAux_eq_digits pid pid (Nat.le_refl _)]

/-- The ten digit characters at a glance. -/
theorem digitChar_facts : ∀ m, m < 10 → (Nat.digitChar m).isDigit = true ∧
    Nat.digitChar m ≠ ' ' ∧ Nat.digitChar m ≠ '$' ∧
    (m ≠ 0 → Nat.digitChar m ≠ '0') ∧ (Nat.digitChar m).toNat - 48 = m := by
  decide

theorem pidChars_mem (pid : Nat) :
    ∀ c ∈ pidChars pid, ∃ m, m < 10 ∧ c = Nat.digitChar m := by
  intro c hc
  by_cases h : pid = 0
  · subst h
    simp [pidChars] at hc
    subst hc
    exact ⟨0, by norm_num, rfl⟩
  · rw [pidChars_eq_digits pid h, List.mem_reverse] at hc
    rcases List.mem_map.mp hc with ⟨m, hm, hrfl⟩
    exact ⟨m, Nat.digits_lt_base (by norm_num) hm, hrfl.symm⟩

theorem pidChars_ne_nil (pid : Nat) : pidChars pid ≠ [] := by
  by_cases h : pid = 0
  · subst h
    simp [pidChars]
  · rw [pidChars_eq_digits pid h]
    simp [Nat.digits_ne_nil_iff_ne_zero.mpr h]

theorem pidChars_no_space (pid : Nat) : ∀ c ∈ pidChars pid, c ≠ ' ' := by
  intro c hc
  rcases pidChars_mem pid c hc with ⟨m, hm, hrfl⟩
  subst hrfl
  exact (digitChar_facts m hm).2.1

theorem pidChars_no_dollar (pid : Nat) : ∀ c ∈ pidChars pid, c ≠ '$' := by
  intro c hc
  rcases pidChars_mem pid c hc with ⟨m, hm, hrfl⟩
  subst hrfl
  exact (digitChar_facts m hm).2.2.1

theorem pidChars_isDigit (pid : Nat) : ∀ c ∈ pidChars pid, c.isDigit = true := by
  intro c hc
  rcases pidChars_mem pid c hc with ⟨m, hm, hrfl⟩
  subst hrfl
  exact (digitChar_facts m hm).1

theorem pidChars_head_ne_zero (pid : Nat) (h : pid ≠ 0) :
    (pidChars pid).head? ≠ some '0' := by
  rw [pidChars_eq_digits pid h, List.head?_reverse, List.getLast?_map]
  have hne : Nat.digits 10 pid ≠ [] := Nat.digits_ne_nil_iff_ne_zero.mpr h
  rw [List.getLast?_eq_getLast _ hne]
  have hlast_ne := Nat.getLast_digit_ne_zero 10 h
  have hmem := List.getLast_mem hne
  have hlt : (Nat.digits 10 pid).getLast hne < 10 :=
    Nat.digits_lt_base (by norm_num) hmem
  have hne0 := (digitChar_facts _ hlt).2.2.2.1 hlast_ne
  simp [hne0]

theorem pidChars_ofDigits (pid : Nat) :
    Nat.ofDigits 10 ((pidChars pid).reverse.map (fun c => c.toNat - 48)) = pid := by
  by_cases h : pid = 0
  · subst h
    decide
  · rw [pidChars_eq_digits pid h, List.reverse_reverse, List.map_map]
    have hmap : (Nat.digits 10 pid).map ((fun c => c.toNat - 48) ∘ Nat.digitChar)
        = Nat.digits 10 pid := by
      have hcg : (Nat.digits 10 pid).map ((fun c => c.toNat - 48) ∘ Nat.digitChar)
          = (Nat.digits 10 pid).map id := by
        apply List.map_congr_left
        intro a ha
        have hlt : a < 10 := Nat.digits_lt_base (by norm_num) ha
        show (Nat.digitChar a).toNat - 48 = id a
        exact (digitChar_facts a hlt).2.2.2.2
      rw [hcg, List.map_id]
    rw [hmap, Nat.ofDigits_digits]

/-! ## C5: the expansion pass -/

/-- C5: for every input string the expansion pass equals the composition
of (i) collapsing each run of spaces to one space and dropping leading
spaces and (ii) replacing every non-overlapping `$$` occurrence, scanned
left to right, by the decimal numeral of the process id while copying a
lone `$` literally; the pass is idempotent; and the pid string is a
decimal numeral — digit characters only, `"0"` exactly for pid 0, no
leading zero otherwise, and its digits read back to the pid value. -/
theorem C5_expansion (pid : Nat) (s : List Char) :
    expand (pidChars pid) s = replaceDollars (pidChars pid) (collapseSpaces s)
    ∧ expand (pidChars pid) (expand (pidChars pid) s) = expand (pidChars pid) s
    ∧ (∀ c ∈ pidChars pid, c.isDigit = true)
    ∧ (pid = 0 → pidChars pid = ['0'])
    ∧ (pid ≠ 0 → (pidChars pid).head? ≠ some '0')
    ∧ Nat.ofDigits 10 ((pidChars pid).reverse.map (fun c => c.toNat - 48)) = pid :=
  ⟨expand_eq_spec (pidChars pid) s,
    expand_idem (pidChars pid) s (pidChars_ne_nil pid) (pidChars_no_space pid)
      (pidChars_no_dollar pid),
    pidChars_isDigit pid,
    fun h => by rw [pidChars, if_pos h],
    pidChars_head_ne_zero pid,
    pidChars_ofDigits pid⟩

/-- C5, witness: the characterization at pid 42 on a sample input. -/
theorem C5_witness :
    expand (pidChars 42) ("a $$  b$".toList)
      = replaceDollars (pidChars 42) (collapseSpaces ("a $$  b$".toList))
    ∧ expand (pidChars 42) (expand (pidChars 42) ("a $$  b$".toList))
        = expand (pidChars 42) ("a $$  b$".toList)
    ∧ (pidChars 42).head? ≠ some '0' :=
  ⟨(C5_expansion 42 ("a $$  b$".toList)).1,
    (C5_expansion 42 ("a $$  b$".toList)).2.1,
    (C5_expansion 42 ("a $$  b$".toList)).2.2.2.2.1 (by decide)⟩

/-! ## parse_command support: heads, tokens, the background operator -/

theorem truncate_right_cons (c : Char) (rest : List Char) :
    truncate_right (c :: rest) =
      match truncate_right rest with
      | [] => if c = ' ' || c = '\n' then [] else [c]
      | r => c :: r := rfl

theorem truncate_right_head (l : List Char) :
    truncate_right l = [] ∨ (truncate_right l).head? = l.head? := by
  cases l with
  | nil => exact Or.inl rfl
  | cons c rest =>
    rw [truncate_right_cons]
    cases htr : truncate_right rest with
    | nil =>
      by_cases hsp : c = ' ' || c = '\n'
      · left
        simp [hsp]
      · right
        simp [hsp]
    | cons r rs => exact Or.inr rfl

/-- The head of the trimmed, expanded command string is never a space. -/
theorem parsed_head_not_space (pid : Nat) (input : List Char) :
    ∀ c, (truncate_right (expand (pidChars pid) input)).head? = some c → c ≠ ' ' := by
  intro c hc
  rcases truncate_right_head (expand (pidChars pid) input) with h0 | hh
  · rw [h0] at hc
    cases hc
  · rw [hh] at hc
    exact expand_head_not_space _ _ (pidChars_ne_nil pid) (pidChars_no_space pid) c hc

theorem spanUntilOp_fst_head (s : List Char) (hs : s ≠ []) :
    (spanUntilOp s).1.head? = s.head? ∧ (spanUntilOp s).1 ≠ [] := by
  cases s with
  | nil => exact absurd rfl hs
  | cons c rest =>
    cases rest with
    | nil => exact ⟨rfl, by simp [spanUntilOp]⟩
    | cons c2 rest2 =>
      by_cases h : isOpPattern (c :: c2 :: rest2)
      · constructor <;> simp [spanUntilOp, h]
      · constructor <;> simp [spanUntilOp, h]

theorem strtok_words_aux_ne_nil : ∀ (l acc : List Char), acc ≠ [] →
    strtok_words_aux l acc ≠ [] := by
  intro l
  induction l with
  | nil =>
    intro acc h
    simp [strtok_words_aux, h]
  | cons c rest ih =>
    intro acc h
    by_cases hc : c = ' '
    · simp [strtok_words_aux, hc, h]
    · simp only [strtok_words_aux, if_neg hc]
      exact ih (c :: acc) (by simp)

theorem strtok_words_cons_ne_nil (c : Char) (r : List Char) (hc : c ≠ ' ') :
    strtok_words (c :: r) ≠ [] := by
  show strtok_words_aux (c :: r) [] ≠ []
  simp only [strtok_words_aux, if_neg hc]
  exact strtok_words_aux_ne_nil r [c] (by simp)

theorem strtok_words_aux_mem_ne_nil : ∀ (l acc : List Char),
    ∀ w ∈ strtok_words_aux l acc, w ≠ [] := by
  intro l
  induction l with
  | nil =>
    intro acc w hw
    by_cases h : acc = []
    · simp [strtok_words_aux, h] at hw
    · simp [strtok_words_aux, h] at hw
      subst hw
      simp [h]
  | cons c rest ih =>
    intro acc w hw
    by_cases hc : c = ' '
    · by_cases h : acc = []
      · simp only [strtok_words_aux, if_pos hc, if_pos h] at hw
        exact ih [] w hw
      · simp only [strtok_words_aux, if_pos hc, if_neg h] at hw
        rcases List.mem_cons.mp hw with h1 | h1
        · subst h1
          simp [h]
        · exact ih [] w h1
    · simp only [strtok_words_aux, if_neg hc] at hw
      exact ih (c :: acc) w hw

theorem parse_args_loop_subset : ∀ (l : List (List Char)) (i : Nat),
    ∀ x ∈ parse_args_loop l i, x ∈ l := by
  intro l
  induction l with
  | nil => intro i x hx; simp [parse_args_loop] at hx
  | cons t ts ih =>
    intro i x hx
    rw [parse_args_loop] at hx
    rcases List.mem_cons.mp hx with h | h
    · subst h
      exact List.mem_cons_self _ _
    · by_cases hi : i + 1 < MAX_ARGV_SIZE
      · rw [if_pos hi] at h
        exact List.mem_cons_of_mem t (ih (i + 1) x h)
      · rw [if_neg hi] at h
        simp at h

theorem parse_args_facts (c : Char) (r : List Char) (hc : c ≠ ' ') :
    parse_args (c :: r) ≠ [] ∧ ∀ a ∈ parse_args (c :: r), a ≠ [] := by
  constructor
  · rw [parse_args]
    cases hw : strtok_words (c :: r) with
    | nil => exact absurd hw (strtok_words_cons_ne_nil c r hc)
    | cons t ts => simp [parse_args_loop]
  · intro a ha
    have hmem := parse_args_loop_subset (strtok_words (c :: r)) 0 a ha
    exact strtok_words_aux_mem_ne_nil (c :: r) [] a hmem

theorem dropLast_head (l : List Char) (h : 2 ≤ l.length) :
    l.dropLast.head? = l.head? := by
  cases l with
  | nil => simp at h
  | cons a t =>
    cases t with
    | nil => simp at h
    | cons b t2 => rfl

/-- Head of the argv string: truncating the trailing space at the
operator boundary does not change the first character. -/
theorem argvStr_head (l : List Char) (c0 : Char) (hl : l.head? = some c0)
    (hc0 : c0 ≠ ' ') :
    (if l.getLast? = some ' ' then l.dropLast else l).head? = some c0 := by
  by_cases h : l.getLast? = some ' '
  · rw [if_pos h]
    cases l with
    | nil => cases hl
    | cons x t =>
      cases t with
      | nil =>
        have hx : x = c0 := Option.some_inj.mp hl
        have hx2 : x = ' ' := by simpa using h
        rw [hx] at hx2
        exact absurd hx2 hc0
      | cons y t2 => exact hl
  · rw [if_neg h]
    exact hl

/-- The argv produced by steps 3 and 4 of `parse_command` is nonempty
with only nonempty entries, provided the string is nonempty and does not
start with a space. -/
theorem parseTail_argv_facts (s : List Char) (hs : s ≠ [])
    (hhead : ∀ c, s.head? = some c → c ≠ ' ') :
    (parseTail s).argv ≠ [] ∧ ∀ a ∈ (parseTail s).argv, a ≠ [] := by
  obtain ⟨c0, s', rfl⟩ : ∃ c0 s', s = c0 :: s' := by
    cases s with
    | nil => exact absurd rfl hs
    | cons a b => exact ⟨a, b, rfl⟩
  obtain ⟨hsh, hsne⟩ := spanUntilOp_fst_head (c0 :: s') (by simp)
  have hc0 : c0 ≠ ' ' := hhead c0 rfl
  have hAh := argvStr_head (spanUntilOp (c0 :: s')).1 c0 hsh hc0
  have hargv : (parseTail (c0 :: s')).argv =
      parse_args (if (spanUntilOp (c0 :: s')).1.getLast? = some ' '
        then (spanUntilOp (c0 :: s')).1.dropLast else (spanUntilOp (c0 :: s')).1) := rfl
  rw [hargv]
  cases hA : (if (spanUntilOp (c0 :: s')).1.getLast? = some ' '
      then (spanUntilOp (c0 :: s')).1.dropLast else (spanUntilOp (c0 :: s')).1) with
  | nil =>
    rw [hA] at hAh
    cases hAh
  | cons a0 arest =>
    rw [hA] at hAh
    have ha0 : a0 = c0 := Option.some_inj.mp hAh
    have ha0ne : a0 ≠ ' ' := by rw [ha0]; exact hc0
    exact parse_args_facts a0 arest ha0ne

theorem bgOperatorPresent_eq_true_iff (s : List Char) :
    bgOperatorPresent s = true ↔ ∃ v, v ≠ [] ∧ s = v ++ [' ', '&'] := by
  constructor
  · intro h
    rw [bgOperatorPresent] at h
    cases hr : s.reverse with
    | nil => rw [hr] at h; cases h
    | cons a r1 =>
      cases r1 with
      | nil => rw [hr] at h; cases h
      | cons b r2 =>
        cases r2 with
        | nil => rw [hr] at h; cases h
        | cons c r =>
          rw [hr] at h
          simp only [Bool.and_eq_true, beq_iff_eq] at h
          obtain ⟨ha, hb⟩ := h
          subst ha
          subst hb
          refine ⟨(c :: r).reverse, by simp, ?_⟩
          have hss : s = s.reverse.reverse := (List.reverse_reverse s).symm
          rw [hss, hr]
          simp
  · rintro ⟨v, hv, rfl⟩
    rw [bgOperatorPresent, List.reverse_append]
    cases hvr : v.reverse with
    | nil =>
      exfalso
      exact hv (by simpa using congrArg List.reverse hvr)
    | cons x xs => simp

/-- Under the no-leading-space invariant, the code's background test is
exactly the claim's: the line ends in `" &"` and some non-space character
precedes that space. -/
theorem bgOperatorPresent_claim_iff (s : List Char)
    (hhead : ∀ c, s.head? = some c → c ≠ ' ') :
    bgOperatorPresent s = true ↔
      ∃ v, s = v ++ [' ', '&'] ∧ ∃ c, c ∈ v ∧ c ≠ ' ' := by
  rw [bgOperatorPresent_eq_true_iff]
  constructor
  · rintro ⟨v, hv, rfl⟩
    refine ⟨v, rfl, ?_⟩
    cases v with
    | nil => exact absurd rfl hv
    | cons c0 v' =>
      exact ⟨c0, List.mem_cons_self c0 v', hhead c0 (by simp)⟩
  · rintro ⟨v, rfl, c, hc, _⟩
    refine ⟨v, ?_, rfl⟩
    rintro rfl
    cases hc

theorem bgOperatorPresent_length (s : List Char) (h : bgOperatorPresent s = true) :
    3 ≤ s.length := by
  rcases (bgOperatorPresent_eq_true_iff s).mp h with ⟨v, hv, rfl⟩
  cases v with
  | nil => exact absurd rfl hv
  | cons x xs => simp

theorem parseTail_background (s : List Char) : (parseTail s).background = false := rfl

/-! ## C3: no descriptor exactly for blank and comment lines -/

/-- C3: `parse_command` returns no descriptor precisely when the line,
after `$$`-expansion with space collapsing and right-trimming, is empty or
starts with `#`; every returned descriptor has a nonempty argv whose
entries are all nonempty strings. -/
theorem C3_no_descriptor_iff (pid : Nat) (input : List Char) :
    (parse_command pid input = none ↔
      (truncate_right (expand (pidChars pid) input) = [] ∨
        (truncate_right (expand (pidChars pid) input)).head? = some '#'))
    ∧ ∀ d, parse_command pid input = some d →
        d.argv ≠ [] ∧ ∀ a ∈ d.argv, a ≠ [] := by
  set s := truncate_right (expand (pidChars pid) input) with hsdef
  have hpc : parse_command pid input =
      (if s = [] then none
       else if s.head? = some '#' then none
       else if bgOperatorPresent s then
         some { parseTail (s.dropLast.dropLast) with background := true }
       else some (parseTail s)) := rfl
  have hhead : ∀ c, s.head? = some c → c ≠ ' ' := parsed_head_not_space pid input
  by_cases h1 : s = []
  · rw [hpc, if_pos h1]
    refine ⟨by simp [h1], ?_⟩
    intro d hd
    cases hd
  · by_cases h2 : s.head? = some '#'
    · rw [hpc, if_neg h1, if_pos h2]
      refine ⟨by simp [h2], ?_⟩
      intro d hd
      cases hd
    · rw [hpc, if_neg h1, if_neg h2]
      constructor
      · constructor
        · intro h
          by_cases hbg : bgOperatorPresent s
          · rw [if_pos hbg] at h
            cases h
          · rw [if_neg hbg] at h
            cases h
        · intro h
          rcases h with h | h
          · exact absurd h h1
          · exact absurd h h2
      · intro d hd
        by_cases hbg : bgOperatorPresent s
        · rw [if_pos hbg] at hd
          have hd' : d = { parseTail (s.dropLast.dropLast) with background := true } :=
            (Option.some_inj.mp hd).symm
          subst hd'
          have hlen3 := bgOperatorPresent_length s hbg
          have hne2 : s.dropLast.dropLast ≠ [] := by
            intro h0
            have hl := congrArg List.length h0
            simp [List.length_dropLast] at hl
            omega
          have hh2 : ∀ c, (s.dropLast.dropLast).head? = some c → c ≠ ' ' := by
            intro c hc
            rw [dropLast_head s.dropLast (by simp [List.length_dropLast]; omega),
              dropLast_head s (by omega)] at hc
            exact hhead c hc
          exact parseTail_argv_facts _ hne2 hh2
        · rw [if_neg hbg] at hd
          have hd' : d = parseTail s := (Option.some_inj.mp hd).symm
          subst hd'
          exact parseTail_argv_facts s h1 hhead

/-- C3, witness: `"echo hi"` parses to a two-entry argv of nonempty
words. -/
theorem C3_witness :
    (([['e', 'c', 'h', 'o'], ['h', 'i']] : List (List Char)) ≠ [] ∧
      ∀ a ∈ ([['e', 'c', 'h', 'o'], ['h', 'i']] : List (List Char)), a ≠ []) :=
  (C3_no_descriptor_iff 3 ("echo hi".toList)).2
    ⟨[['e', 'c', 'h', 'o'], ['h', 'i']], false, none, none⟩ rfl

/-! ## C4: the background operator -/

/-- C4: for every non-blank, non-comment line, the parser marks the
command as background exactly when the trimmed, expanded line ends in a
space followed by `&` with at least one non-space character before that
space; in that case the descriptor is built from the line with the
trailing ` &` removed before argument parsing.  The input `"&"` alone
parses to `argv = ["&"]` with `background = false`. -/
theorem C4_background_flag (pid : Nat) (input : List Char)
    (hne : truncate_right (expand (pidChars pid) input) ≠ [])
    (hnc : ¬ (truncate_right (expand (pidChars pid) input)).head? = some '#') :
    (∃ d, parse_command pid input = some d ∧
      (d.background = true ↔
        ∃ v, truncate_right (expand (pidChars pid) input) = v ++ [' ', '&'] ∧
          ∃ c, c ∈ v ∧ c ≠ ' ') ∧
      (d.background = true →
        d = { parseTail ((truncate_right (expand (pidChars pid) input)).dropLast.dropLast)
              with background := true }))
    ∧ parse_command pid ['&'] =
        some { argv := [['&']], background := false, i_stream := none, o_stream := none } := by
  constructor
  · set s := truncate_right (expand (pidChars pid) input) with hsdef
    have hpc : parse_command pid input =
        (if s = [] then none
         else if s.head? = some '#' then none
         else if bgOperatorPresent s then
           some { parseTail (s.dropLast.dropLast) with background := true }
         else some (parseTail s)) := rfl
    have hiff := bgOperatorPresent_claim_iff s (parsed_head_not_space pid input)
    by_cases hbg : bgOperatorPresent s
    · refine ⟨{ parseTail (s.dropLast.dropLast) with background := true }, ?_, ?_, ?_⟩
      · rw [hpc, if_neg hne, if_neg hnc, if_pos hbg]
      · exact ⟨fun _ => hiff.mp hbg, fun _ => rfl⟩
      · intro _
        rfl
    · refine ⟨parseTail s, ?_, ?_, ?_⟩
      · rw [hpc, if_neg hne, if_neg hnc, if_neg hbg]
      · constructor
        · intro hfalse
          rw [parseTail_background] at hfalse
          cases hfalse
        · intro hcond
          exact absurd (hiff.mpr hcond) hbg
      · intro hfalse
        rw [parseTail_background] at hfalse
        cases hfalse
  · rfl

/-- C4, witness: `"ls &"` is recognized as a background command. -/
theorem C4_witness :
    (∃ d, parse_command 7 ("ls &".toList) = some d ∧
      (d.background = true ↔
        ∃ v, truncate_right (expand (pidChars 7) ("ls &".toList)) = v ++ [' ', '&'] ∧
          ∃ c, c ∈ v ∧ c ≠ ' ') ∧
      (d.background = true →
        d = { parseTail ((truncate_right (expand (pidChars 7)
                ("ls &".toList))).dropLast.dropLast)
              with background := true }))
    ∧ parse_command 7 ['&'] =
        some { argv := [['&']], background := false, i_stream := none, o_stream := none } :=
  C4_background_flag 7 ("ls &".toList) (by decide) (by decide)

/-! ## redirection parsing: last write wins (C6) -/

theorem redirUpdate_skip (acc : Option (List Char) × Option (List Char))
    (seg : Char × List Char) (hf : seg.2 = []) : redirUpdate acc seg = acc := by
  simp [redirUpdate, hf]

theorem redirUpdate_input (acc : Option (List Char) × Option (List Char))
    (seg : Char × List Char) (hf : seg.2 ≠ []) (hop : seg.1 = '<') :
    redirUpdate acc seg = (some seg.2, acc.2) := by
  simp [redirUpdate, hf, hop]

theorem redirUpdate_output (acc : Option (List Char) × Option (List Char))
    (seg : Char × List Char) (hf : seg.2 ≠ []) (hop : seg.1 ≠ '<') :
    redirUpdate acc seg = (acc.1, some seg.2) := by
  simp only [redirUpdate, if_neg hf]
  rw [if_neg]
  simpa using hop

/-- The redirection loop is the fold of its per-segment update over the
segments it scans. -/
theorem redirLoop_eq_foldl : ∀ n t (i o : Option (List Char)),
    redirLoop n t i o = (redirSegments n t).foldl redirUpdate (i, o) := by
  intro n
  induction n with
  | zero => intro t i o; rfl
  | succ n ih =>
    intro t i o
    cases t with
    | nil => rfl
    | cons op rest =>
      cases rest with
      | nil => rfl
      | cons c2 rest2 =>
        simp only [redirLoop, redirSegments, List.foldl_cons]
        by_cases hf : truncate_right (spanUntilOp (skipSpacesBounded (c2 :: rest2))).1 = []
        · rw [if_pos hf, ih,
            redirUpdate_skip (i, o) (op, truncate_right
              (spanUntilOp (skipSpacesBounded (c2 :: rest2))).1) hf]
        · rw [if_neg hf]
          by_cases hop : op == '<'
          · rw [if_pos hop, ih,
              redirUpdate_input (i, o) _ hf (by simpa using hop)]
          · rw [if_neg hop, ih,
              redirUpdate_output (i, o) _ hf (by simpa using hop)]

theorem lastWins_cons (prev : Option (List Char)) (x : List Char)
    (l : List (List Char)) : lastWins prev (x :: l) = lastWins (some x) l := by
  cases l with
  | nil => rfl
  | cons y ys =>
    rw [lastWins, lastWins, List.getLast?_cons_cons]
    cases hys : (y :: ys).getLast? with
    | none =>
      exfalso
      exact (List.cons_ne_nil y ys) (List.getLast?_eq_none_iff.mp hys)
    | some z => rfl

/-- Folding the update function keeps, for each operator, the last
nonempty capture (or the previous value when there is none). -/
theorem foldl_redirUpdate_lastWins : ∀ (segs : List (Char × List Char))
    (i o : Option (List Char)),
    segs.foldl redirUpdate (i, o) =
      (lastWins i (segs.filterMap pickInput), lastWins o (segs.filterMap pickOutput)) := by
  intro segs
  induction segs with
  | nil => intro i o; rfl
  | cons seg rest ih =>
    intro i o
    rw [List.foldl_cons]
    by_cases hf : seg.2 = []
    · rw [redirUpdate_skip (i, o) seg hf, ih]
      have hin : pickInput seg = none := by simp [pickInput, hf]
      have hout : pickOutput seg = none := by simp [pickOutput, hf]
      rw [List.filterMap_cons_none hin, List.filterMap_cons_none hout]
    · by_cases hop : seg.1 = '<'
      · rw [redirUpdate_input (i, o) seg hf hop, ih]
        have hin : pickInput seg = some seg.2 := by simp [pickInput, hf, hop]
        have hout : pickOutput seg = none := by simp [pickOutput, hop]
        rw [List.filterMap_cons_some hin, List.filterMap_cons_none hout, lastWins_cons]
      · rw [redirUpdate_output (i, o) seg hf hop, ih]
        have hin : pickInput seg = none := by simp [pickInput, hop]
        have hout : pickOutput seg = some seg.2 := by simp [pickOutput, hf, hop]
        rw [List.filterMap_cons_none hin, List.filterMap_cons_some hout, lastWins_cons]

/-- C6: for every redirection region, the input path in the resulting
descriptor is the last nonempty (after right-trimming) filename span
following a `<` operator and the output path the last nonempty span
following a `>` operator — later occurrences of the same operator
overwrite earlier ones, and whitespace-only spans are ignored (a path for
which no nonempty span exists stays absent); in particular
`"cmd > a > b"` parses with output path `"b"`. -/
theorem C6_last_redirection_wins :
    (∀ t, redirPhase t =
      (lastWins none ((redirSegments t.length t).filterMap pickInput),
       lastWins none ((redirSegments t.length t).filterMap pickOutput)))
    ∧ parse_command 42 ("cmd > a > b".toList) =
        some { argv := [['c', 'm', 'd']], background := false,
               i_stream := none, o_stream := some ['b'] } := by
  constructor
  · intro t
    rw [redirPhase, redirLoop_eq_foldl, foldl_redirUpdate_lastWins]
  · rfl

/-! ## run_command stream-open failure (C1) -/

/-- C1, counterexample: with the last-foreground-result previously set to
a signal termination (`by_signal = true`, code 5), an input-open failure
makes `run_command` set `exit_status = 1` but leave `by_signal` untouched,
so the resulting last-foreground-result has kind TerminatedBySignal, not
ExitedNormally as the claim states. -/
theorem C1_counterexample :
    resolveInputFd c1_os (some ['x']) false = none ∧
    (run_command c1_os [['c', 'a', 't']] (some ['x']) none false
      ⟨5, true⟩).state.by_signal = true := ⟨rfl, rfl⟩

/-- C1 (amended): for every command descriptor and every prior value of
the last-foreground-result, if opening the resolved input or output stream
fails in `run_command`, then after the call the last-foreground-result's
code equals 1 while its kind (`by_signal`) is left unchanged from its
prior value, no child process is created, and any already-opened stream
has been released (every descriptor the call opened is closed; the
hypothesis that `open` never returns `STDIN_FILENO` reflects that
descriptor 0 is already occupied by the shell's standard input). -/
theorem C1_open_failure (os : OSBehavior) (argv : List (List Char))
    (input_file output_file : Option (List Char)) (in_background : Bool)
    (s : ShellState)
    (hfd : ∀ f fd, os.openRead f = some fd → fd ≠ STDIN_FILENO)
    (hfail : resolveInputFd os input_file in_background = none ∨
      resolveOutputFd os output_file in_background = none) :
    (run_command os argv input_file output_file in_background s).state.exit_status = 1
    ∧ (run_command os argv input_file output_file in_background s).state.by_signal
        = s.by_signal
    ∧ (run_command os argv input_file output_file in_background s).childCreated = false
    ∧ ∀ fd ∈ (run_command os argv input_file output_file in_background s).openedFds,
        fd ∈ (run_command os argv input_file output_file in_background s).closedFds := by
  cases hin : resolveInputFd os input_file in_background with
  | none =>
    simp [run_command, hin]
  | some input_fd =>
    cases hout : resolveOutputFd os output_file in_background with
    | none =>
      have hne : inputWasOpened input_file in_background = true → input_fd ≠ STDIN_FILENO := by
        intro hop
        cases input_file with
        | some f =>
          exact hfd f input_fd (by simpa [resolveInputFd] using hin)
        | none =>
          cases in_background with
          | true => exact hfd devNull input_fd (by simpa [resolveInputFd] using hin)
          | false => simp [inputWasOpened] at hop
      refine ⟨?_, ?_, ?_, ?_⟩
      · simp [run_command, hin, hout]
      · simp [run_command, hin, hout]
      · simp [run_command, hin, hout]
      · intro fd hmem
        simp only [run_command, hin, hout] at hmem ⊢
        by_cases hop : inputWasOpened input_file in_background = true
        · simp only [hop, if_true] at hmem
          simp only [List.mem_singleton] at hmem
          subst hmem
          simp [hne hop]
        · simp only [Bool.not_eq_true] at hop
          simp [hop] at hmem
    | some output_fd =>
      cases hfail with
      | inl h => rw [hin] at h; cases h
      | inr h => rw [hout] at h; cases h

/-- C1, witness: the amended theorem applied to a concrete failing open. -/
theorem C1_witness :
    (run_command c1_os [['c', 'a', 't']] (some ['y']) none false
      ⟨0, false⟩).state.exit_status = 1
    ∧ (run_command c1_os [['c', 'a', 't']] (some ['y']) none false
        ⟨0, false⟩).state.by_signal = (⟨0, false⟩ : ShellState).by_signal
    ∧ (run_command c1_os [['c', 'a', 't']] (some ['y']) none false
        ⟨0, false⟩).childCreated = false
    ∧ ∀ fd ∈ (run_command c1_os [['c', 'a', 't']] (some ['y']) none false
        ⟨0, false⟩).openedFds,
        fd ∈ (run_command c1_os [['c', 'a', 't']] (some ['y']) none false
          ⟨0, false⟩).closedFds :=
  C1_open_failure c1_os [['c', 'a', 't']] (some ['y']) none false ⟨0, false⟩
    (fun _ _ h => Option.noConfusion h) (Or.inl rfl)

/-! ## background resolution and downgrade (C7) -/

/-- C7: a `Background PID` notice is only ever printed when the effective
background flag `descriptor.background && foreground_flag != 1` is true; a
background request made while the foreground-only flag is set is
downgraded: no `Background PID` notice appears, and — whenever the opens
and the fork succeed — the parent waits for the child in the foreground
and the last-foreground-result is updated from the child's classified
termination status; in general, under successful opens and fork the child
is detached as a background job exactly when the effective flag is true. -/
theorem C7_background_resolution (os : OSBehavior) (d : Command)
    (foreground_flag : Nat) (s : ShellState) :
    (∀ p, Event.backgroundPid p ∈ (dispatch_run os d foreground_flag s).events →
      (d.background && (foreground_flag != 1)) = true)
    ∧ (d.background = true → foreground_flag = 1 →
        (∀ p, Event.backgroundPid p ∉ (dispatch_run os d foreground_flag s).events)
        ∧ ∀ fdi fdo pid,
            resolveInputFd os d.i_stream false = some fdi →
            resolveOutputFd os d.o_stream false = some fdo →
            os.forkResult = some pid →
            (dispatch_run os d foreground_flag s).waited = true
            ∧ (dispatch_run os d foreground_flag s).ranInBackground = false
            ∧ (dispatch_run os d foreground_flag s).state = classifyWait os.waitStatus)
    ∧ (∀ fdi fdo pid,
        resolveInputFd os d.i_stream (d.background && (foreground_flag != 1)) = some fdi →
        resolveOutputFd os d.o_stream (d.background && (foreground_flag != 1)) = some fdo →
        os.forkResult = some pid →
        (dispatch_run os d foreground_flag s).ranInBackground =
          (d.background && (foreground_flag != 1))) := by
  refine ⟨?_, ?_, ?_⟩
  · intro p hp
    unfold dispatch_run run_command at hp
    cases hin : resolveInputFd os d.i_stream (d.background && (foreground_flag != 1)) with
    | none => rw [hin] at hp; simp at hp
    | some fdi =>
      rw [hin] at hp
      cases hout : resolveOutputFd os d.o_stream (d.background && (foreground_flag != 1)) with
      | none => rw [hout] at hp; simp at hp
      | some fdo =>
        rw [hout] at hp
        cases hfork : os.forkResult with
        | none => rw [hfork] at hp; simp at hp
        | some pid =>
          rw [hfork] at hp
          cases hbg : (d.background && (foreground_flag != 1)) with
          | true => rfl
          | false =>
            rw [hbg] at hp
            simp only [Bool.false_eq_true, if_neg] at hp
            cases hw : os.waitStatus with
            | exited c => rw [hw] at hp; simp at hp
            | signaled g => rw [hw] at hp; simp at hp
  · intro hbgd hflag
    have hbg : (d.background && (foreground_flag != 1)) = false := by
      subst hflag; simp [hbgd]
    constructor
    · intro p hp
      unfold dispatch_run run_command at hp
      rw [hbg] at hp
      cases hin : resolveInputFd os d.i_stream false with
      | none => rw [hin] at hp; simp at hp
      | some fdi =>
        rw [hin] at hp
        cases hout : resolveOutputFd os d.o_stream false with
        | none => rw [hout] at hp; simp at hp
        | some fdo =>
          rw [hout] at hp
          cases hfork : os.forkResult with
          | none => rw [hfork] at hp; simp at hp
          | some pid =>
            rw [hfork] at hp
            simp only [Bool.false_eq_true, if_neg] at hp
            cases hw : os.waitStatus with
            | exited c => rw [hw] at hp; simp at hp
            | signaled g => rw [hw] at hp; simp at hp
    · intro fdi fdo pid hin hout hfork
      unfold dispatch_run run_command
      rw [hbg, hin, hout, hfork]
      simp only [Bool.false_eq_true, if_neg]
      cases hw : os.waitStatus with
      | exited c => exact ⟨rfl, rfl, by simp [classifyWait]⟩
      | signaled g => exact ⟨rfl, rfl, by simp [classifyWait]⟩
  · intro fdi fdo pid hin hout hfork
    unfold dispatch_run run_command
    rw [hin, hout, hfork]
    cases hbg : (d.background && (foreground_flag != 1)) with
    | true => rfl
    | false =>
      simp only [Bool.false_eq_true, if_neg]
      cases os.waitStatus with
      | exited c => rfl
      | signaled g => rfl

/-- C7, witness: a background request (`background = true`) under
foreground-only mode (`flag = 1`) with successful opens and fork is waited
for in the foreground and records the child's exit code 3. -/
theorem C7_witness :
    (dispatch_run c7_os ⟨[['l', 's']], true, none, none⟩ 1 ⟨0, false⟩).waited = true
    ∧ (dispatch_run c7_os ⟨[['l', 's']], true, none, none⟩ 1
        ⟨0, false⟩).ranInBackground = false
    ∧ (dispatch_run c7_os ⟨[['l', 's']], true, none, none⟩ 1 ⟨0, false⟩).state
        = classifyWait c7_os.waitStatus :=
  ((C7_background_resolution c7_os ⟨[['l', 's']], true, none, none⟩ 1
    ⟨0, false⟩).2.1 rfl rfl).2 STDIN_FILENO STDOUT_FILENO 9 rfl rfl rfl

/-! ## main-loop end-of-input behavior (C10) -/

/-- C10: if reading the next line fails or reaches end-of-input, the main
loop clears the stream condition and proceeds exactly as if the unchanged
buffer contents had been read again — the resulting state is identical and
the same commands execute (the events differ only by the `clearerr` step);
the buffer is unchanged; and on any iteration the loop's exit flag becomes
true exactly when the parsed buffer is an `exit` command. -/
theorem C10_eof_reparses_buffer (os : OSBehavior) (pid : Nat)
    (foreground_flag : Nat) (st : LoopState) :
    (loop_iteration os pid foreground_flag st none).1 =
      (loop_iteration os pid foreground_flag st (some st.buffer)).1
    ∧ (loop_iteration os pid foreground_flag st none).2 =
        Event.clearedStdinError ::
          (loop_iteration os pid foreground_flag st (some st.buffer)).2
    ∧ (loop_iteration os pid foreground_flag st none).1.buffer = st.buffer
    ∧ (st.exit_triggered = false → ∀ readResult,
        ((loop_iteration os pid foreground_flag st readResult).1.exit_triggered = true ↔
          ∃ d, parse_command pid (readResult.getD st.buffer) = some d ∧
            d.argv.head? = some exitWord)) := by
  have key : loop_iteration os pid foreground_flag st none =
      ((loop_iteration os pid foreground_flag st (some st.buffer)).1,
        Event.clearedStdinError ::
          (loop_iteration os pid foreground_flag st (some st.buffer)).2) := by
    simp only [loop_iteration]
    cases hp : parse_command pid st.buffer with
    | none => simp
    | some d =>
      simp only [hp]
      split_ifs <;> simp
  have hbufline : ∀ line, (loop_iteration os pid foreground_flag st (some line)).1.buffer
      = line := by
    intro line
    simp only [loop_iteration]
    cases hp : parse_command pid line with
    | none => simp
    | some d =>
      simp only [hp]
      split_ifs <;> simp
  have hflag : ∀ line, st.exit_triggered = false →
      ((loop_iteration os pid foreground_flag st (some line)).1.exit_triggered = true ↔
        ∃ d, parse_command pid line = some d ∧ d.argv.head? = some exitWord) := by
    intro line hexit
    simp only [loop_iteration]
    cases hp : parse_command pid line with
    | none =>
      simp only [hp, hexit]
      constructor
      · intro h; cases h
      · rintro ⟨d, hd, _⟩; cases hd
    | some d =>
      simp only [hp]
      split_ifs with h1 h2 h3
      · constructor
        · intro _
          exact ⟨d, rfl, h1⟩
        · intro _
          rfl
      · simp only [hexit]
        constructor
        · intro h; cases h
        · rintro ⟨d', hd', hh⟩
          rw [Option.some_inj] at hd'
          subst hd'
          exact absurd hh h1
      · simp only [hexit]
        constructor
        · intro h; cases h
        · rintro ⟨d', hd', hh⟩
          rw [Option.some_inj] at hd'
          subst hd'
          exact absurd hh h1
      · simp only [hexit]
        constructor
        · intro h; cases h
        · rintro ⟨d', hd', hh⟩
          rw [Option.some_inj] at hd'
          subst hd'
          exact absurd hh h1
  refine ⟨by rw [key], by rw [key], ?_, ?_⟩
  · rw [key]
    exact hbufline st.buffer
  · intro hexit readResult
    cases readResult with
    | none =>
      rw [key]
      exact hflag st.buffer hexit
    | some line => exact hflag line hexit

/-- C10, witness: with `"echo done"` left in the buffer and end-of-input
reached, the loop re-parses the old buffer, does not exit, and records the
`clearerr` step. -/
theorem C10_witness :
    ((loop_iteration c7_os 5 0 ⟨"echo done".toList, false, ⟨0, false⟩⟩ none).1.exit_triggered
        = true ↔
      ∃ d, parse_command 5 ((none : Option (List Char)).getD ("echo done".toList)) = some d ∧
        d.argv.head? = some exitWord) :=
  (C10_eof_reparses_buffer c7_os 5 0 ⟨"echo done".toList, false, ⟨0, false⟩⟩).2.2.2 rfl none

end Smallsh
